import Mathlib

/-!
Verification of the MovieWallArt core (src/main.cpp) against its
natural-language specification.

The embedding models:
* `Color` — an OpenCV `Vec3b` (channel 0 = blue, 1 = green, 2 = red);
* `Frame` — a `cv::Mat` of `Vec3b`, given by its dimensions and a pixel map;
* binary32 arithmetic — the C++ `float` accumulators, as exact rationals
  together with IEEE-754 round-to-nearest-even at 24 significand bits
  (`roundF32`); every C++ float operation is one exact rational operation
  followed by one rounding;
* `GetFrameAverageColor`, `GetFramePixelStrip`, `CreateArtColumn`,
  `CreateMovieWallArt`, `main` — direct translations of the source functions,
  with the `VideoCapture` collaborator abstracted as a seek-by-index `Source`
  and exceptions as `Except`.
-/

/-- A `Vec3b`: channel 0 (`b`), channel 1 (`g`), channel 2 (`r`).
In the model channels are naturals; the program only ever stores 0–255. -/
structure Color where
  b : ℕ
  g : ℕ
  r : ℕ
deriving DecidableEq, Repr

/-- A frame: height, width, and the pixel at `(row, col)` (i.e. `at<Vec3b>(y, x)`). -/
structure Frame where
  h : ℕ
  w : ℕ
  pix : ℕ → ℕ → Color

/-! ### Exact model of IEEE-754 binary32 rounding

C++ `float` values arising in this program are finite and within the normal
range, so a float value is represented by the exact rational it denotes, and
each arithmetic operation is exact rational arithmetic followed by
round-to-nearest-even at a 24-bit significand (`roundF32`).  All recursions
are structural so the kernel can evaluate them.  -/

/-- Floor of log₂ with explicit fuel (structural recursion). -/
def msbAux : ℕ → ℕ → ℕ
  | 0, _ => 0
  | f + 1, n => if n < 2 then 0 else msbAux f (n / 2) + 1

/-- `msb n = ⌊log₂ n⌋` for `n ≥ 1`. -/
def msb (n : ℕ) : ℕ := msbAux n n

/-- `clog2 n = ⌈log₂ n⌉` for `n ≥ 1`. -/
def clog2 (n : ℕ) : ℕ := if n ≤ 1 then 0 else msb (n - 1) + 1

/-- `log2q q = ⌊log₂ q⌋` for a positive rational `q`. -/
def log2q (q : ℚ) : ℤ :=
  if 1 ≤ q then (msb ⌊q⌋₊ : ℤ) else -(clog2 ⌈q⁻¹⌉₊ : ℤ)

/-- Round a rational to the nearest integer, ties to even. -/
def rnEven (q : ℚ) : ℤ :=
  if q - ⌊q⌋ < 1 / 2 then ⌊q⌋
  else if (1 : ℚ) / 2 < q - ⌊q⌋ then ⌊q⌋ + 1
  else if 2 ∣ ⌊q⌋ then ⌊q⌋ else ⌊q⌋ + 1

/-- Round a positive rational to 24 significand bits, ties to even. -/
def roundPos (q : ℚ) : ℚ :=
  (rnEven (q * 2 ^ (-(log2q q - 23))) : ℚ) * 2 ^ (log2q q - 23)

/-- IEEE-754 binary32 rounding (round to nearest, ties to even) of an exact
rational; faithful for all finite values in the normal range, which covers
every value this program computes. -/
def roundF32 (q : ℚ) : ℚ :=
  if 0 < q then roundPos q else if q = 0 then 0 else -roundPos (-q)

/-- C++ `float` addition. -/
def addF32 (a b : ℚ) : ℚ := roundF32 (a + b)

/-- C++ `float` division. -/
def divF32 (a b : ℚ) : ℚ := roundF32 (a / b)

/-- C++ `int`-to-`float` conversion. -/
def natToF32 (n : ℕ) : ℚ := roundF32 n

/-- C++ `float`-to-`uchar` conversion: truncation toward zero (our values are
nonnegative, so this is the floor). -/
def f32toByte (q : ℚ) : ℕ := (⌊q⌋).toNat

/-! ### GetFrameAverageColor (src/main.cpp lines 46–71) -/

/-- The pixel traversal order of both reductions: outer loop over the width,
inner loop over the height (`for w … for h … at<Vec3b>(h, w)`). -/
def framePixels (f : Frame) : List Color :=
  (List.range f.w).flatMap (fun x => (List.range f.h).map (fun y => f.pix y x))

/-- Running float accumulation of one channel over a pixel list
(`pixel_color_b += pixel[0]` etc.). -/
def sumChan (sel : Color → ℕ) (l : List Color) : ℚ :=
  l.foldl (fun s p => addF32 s (sel p)) 0

/-- `GetFrameAverageColor`: float-accumulate each channel over the whole frame,
divide by `frame_dimension = frame_h * frame_w`, truncate to `uchar`. -/
def GetFrameAverageColor (f : Frame) : Color :=
  let n := f.h * f.w
  let l := framePixels f
  { b := f32toByte (divF32 (sumChan Color.b l) (natToF32 n))
    g := f32toByte (divF32 (sumChan Color.g l) (natToF32 n))
    r := f32toByte (divF32 (sumChan Color.r l) (natToF32 n)) }

/-! ### GetFramePixelStrip (src/main.cpp lines 78–125) -/

/-- The mutable locals of `GetFramePixelStrip`: the strip under construction,
the sample counter, the strip cursor, and the three float accumulators
(the code names them `g`, `b`, `r`, but they hold channels 0, 1, 2). -/
structure StripState where
  strip : List Color
  count : ℕ
  sidx : ℕ
  s0 : ℚ
  s1 : ℚ
  s2 : ℚ

/-- The inner replication loop (`for i in 0..strip_interval-1`): each pass
writes `v` at the cursor and advances it, but only while the cursor is still
below `strip_size`. Returns the strip and the final cursor. -/
def writeSlots (v : Color) (ss : ℕ) : ℕ → List Color → ℕ → List Color × ℕ
  | 0, l, i => (l, i)
  | k + 1, l, i =>
    if i < ss then writeSlots v ss k (l.set i v) (i + 1) else writeSlots v ss k l i

/-- One pixel of the walk: float-accumulate the channels, bump the counter,
and when the counter exceeds `sample_interval` emit the running mean into
`strip_interval` slots and reset. -/
def stripStep (ss si sInt : ℕ) (st : StripState) (p : Color) : StripState :=
  let s0 := addF32 st.s0 p.b
  let s1 := addF32 st.s1 p.g
  let s2 := addF32 st.s2 p.r
  let count := st.count + 1
  if si < count then
    let v : Color :=
      { b := f32toByte (divF32 s0 (natToF32 count))
        g := f32toByte (divF32 s1 (natToF32 count))
        r := f32toByte (divF32 s2 (natToF32 count)) }
    let w := writeSlots v ss sInt st.strip st.sidx
    ⟨w.1, 0, w.2, 0, 0, 0⟩
  else
    ⟨st.strip, count, st.sidx, s0, s1, s2⟩

/-- `GetFramePixelStrip`: a strip of `strip_size` default-initialised colors,
filled by walking the frame in column-major order. -/
def GetFramePixelStrip (f : Frame) (ss : ℕ) : List Color :=
  let si := f.h * f.w / ss
  let sInt := si / ss
  ((framePixels f).foldl (stripStep ss si sInt)
    ⟨List.replicate ss ⟨0, 0, 0⟩, 0, 0, 0, 0, 0⟩).strip

/-- Bounds-checked variant of `writeSlots`: the `vector` subscript is modelled
as defined only in range (`none` = out-of-range access). -/
def writeSlotsC (v : Color) (ss : ℕ) : ℕ → List Color → ℕ → Option (List Color × ℕ)
  | 0, l, i => some (l, i)
  | k + 1, l, i =>
    if i < ss then
      if i < l.length then writeSlotsC v ss k (l.set i v) (i + 1) else none
    else writeSlotsC v ss k l i

/-- Bounds-checked variant of `stripStep`. -/
def stripStepC (ss si sInt : ℕ) (st : StripState) (p : Color) : Option StripState :=
  let s0 := addF32 st.s0 p.b
  let s1 := addF32 st.s1 p.g
  let s2 := addF32 st.s2 p.r
  let count := st.count + 1
  if si < count then
    let v : Color :=
      { b := f32toByte (divF32 s0 (natToF32 count))
        g := f32toByte (divF32 s1 (natToF32 count))
        r := f32toByte (divF32 s2 (natToF32 count)) }
    match writeSlotsC v ss sInt st.strip st.sidx with
    | none => none
    | some w => some ⟨w.1, 0, w.2, 0, 0, 0⟩
  else
    some ⟨st.strip, count, st.sidx, s0, s1, s2⟩

/-- Bounds-checked fold over the pixel walk. -/
def foldStripC (ss si sInt : ℕ) : List Color → StripState → Option StripState
  | [], st => some st
  | p :: l, st =>
    match stripStepC ss si sInt st p with
    | none => none
    | some st2 => foldStripC ss si sInt l st2

/-- Bounds-checked `GetFramePixelStrip`: returns `none` if any strip write
would index the vector out of range. -/
def GetFramePixelStripSafe (f : Frame) (ss : ℕ) : Option (List Color) :=
  let si := f.h * f.w / ss
  let sInt := si / ss
  match foldStripC ss si sInt (framePixels f) ⟨List.replicate ss ⟨0, 0, 0⟩, 0, 0, 0, 0, 0⟩ with
  | none => none
  | some st => some st.strip

/-! ### The sampling plan (src/main.cpp lines 199–217)

The loop `while (current_frame < frame_count && column_id < ART_WIDTH)`
visits `current_frame = 0, si, 2*si, …` with `si = frame_count / ART_WIDTH`;
`samplePlan` is the sequence of visited frame indices. -/

/-- Frame indices generated by the sampling loop; the second argument of the
recursion counts the columns still available. -/
def planAux (fc si : ℕ) : ℕ → ℕ → List ℕ
  | _cur, 0 => []
  | cur, n + 1 => if cur < fc then cur :: planAux fc si (cur + si) n else []

/-- The sample plan for `frame_count` frames and `target_columns` columns. -/
def samplePlan (fc tc : ℕ) : List ℕ := planAux fc (fc / tc) 0 tc

/-! ### The art image and CreateArtColumn (src/main.cpp lines 135–180) -/

/-- Output width (`ART_WIDTH`). -/
def ART_W : ℕ := 1920

/-- Output height (`ART_HEIGHT`). -/
def ART_H : ℕ := 1080

/-- The art image: color at `(row, col)` (i.e. `at<Vec3b>(i, column_id)`). -/
def Image : Type := ℕ → ℕ → Color

/-- Write one pixel of the image. -/
def setPixel (img : Image) (y x : ℕ) (c : Color) : Image :=
  fun y2 x2 => if y2 = y ∧ x2 = x then c else img y2 x2

/-- The column loop of `CreateArtColumn`: row `i` of column `col` is set to
`v i`, for `i = 0 .. ART_HEIGHT - 1`. -/
def paintColumn (art : Image) (col : ℕ) (v : ℕ → Color) : Image :=
  (List.range ART_H).foldl (fun im i => setPixel im i col (v i)) art

/-- `CreateArtColumn`: dispatch on the style; an unrecognised style throws
`invalid_argument("Style not found.")`, which no enclosing handler catches
(the local `catch` only takes `cv::Exception`), modelled as `Except.error`. -/
def CreateArtColumn (f : Frame) (art : Image) (col style : ℕ) : Except String Image :=
  if style = 1 then
    .ok (paintColumn art col (fun _ => f.pix (f.h / 2) (f.w / 2)))
  else if style = 2 then
    .ok (paintColumn art col (fun _ => GetFrameAverageColor f))
  else if style = 3 then
    .ok (paintColumn art col (fun i => (GetFramePixelStrip f ART_H).getD i ⟨0, 0, 0⟩))
  else
    .error "Style not found."

/-! ### CreateMovieWallArt and main (src/main.cpp lines 188–234) -/

/-- The `VideoCapture` collaborator: whether it opened, its frame count, and
seek-by-index reads (`none` = empty frame / end of stream). -/
structure Source where
  opened : Bool
  frameCount : ℕ
  frames : ℕ → Option Frame

/-- The sampling loop of `CreateMovieWallArt`; `fuel` counts the columns still
available (`fuel = ART_WIDTH - column_id`), so `0 < fuel ↔ column_id < ART_WIDTH`. -/
def buildLoop (src : Source) (fc si style : ℕ) : ℕ → ℕ → ℕ → Image → Except String Image
  | _cur, _col, 0, art => .ok art
  | cur, col, fuel + 1, art =>
    if cur < fc then
      match src.frames cur with
      | none => .ok art
      | some f =>
        match CreateArtColumn f art col style with
        | .error e => .error e
        | .ok art2 => buildLoop src fc si style (cur + si) (col + 1) fuel art2
    else .ok art

/-- `CreateMovieWallArt` with the rendering style as a parameter: if the
source cannot be opened it prints an error and returns with the image
untouched; otherwise it runs the sampling loop. -/
def buildWithStyle (src : Source) (art : Image) (style : ℕ) : Except String Image :=
  if src.opened then
    buildLoop src src.frameCount (src.frameCount / ART_W) style 0 0 ART_W art
  else .ok art

/-- `CreateMovieWallArt` as written: the call site hardcodes
`ART_STYLE_PIXEL_STRIP` (= 3). -/
def CreateMovieWallArt (src : Source) (art : Image) : Except String Image :=
  buildWithStyle src art 3

/-- `main`: builds the art and then unconditionally calls
`imwrite(ART_PATH, art_image)`. `some img` means `img` was written to the art
path; `none` means an exception escaped `CreateMovieWallArt`, terminating the
process before `imwrite`. -/
def mainRun (src : Source) (art0 : Image) : Option Image :=
  match CreateMovieWallArt src art0 with
  | .ok img => some img
  | .error _ => none

/-- The frames the sampling loop reads, starting at frame `cur`, stepping by
`si`, for at most `k` reads, stopping at the first empty frame. -/
def readFrames (src : Source) (si : ℕ) : ℕ → ℕ → List Frame
  | _cur, 0 => []
  | cur, k + 1 =>
    match src.frames cur with
    | none => []
    | some f => f :: readFrames src si (cur + si) k

/-- Rendering a list of frames into consecutive columns starting at `col`:
the per-column effect of the sampling loop, detached from the source. -/
def renderColumns (style : ℕ) : List Frame → ℕ → Image → Except String Image
  | [], _col, art => .ok art
  | f :: fs, col, art =>
    match CreateArtColumn f art col style with
    | .error e => .error e
    | .ok art2 => renderColumns style fs (col + 1) art2

/-! ### Concrete inputs used by counterexamples and witnesses -/

/-- A frame of 1 × 16781312 pixels, all of color `(1,1,1)`: large enough that
the float accumulator saturates at 2²⁴ and the averages truncate to 0. -/
def bigFrame : Frame := ⟨1, 16781312, fun _ _ => ⟨1, 1, 1⟩⟩

/-- A 2 × 2 frame filled with the color `(5,5,5)`. -/
def uniFrame22 : Frame := ⟨2, 2, fun _ _ => ⟨5, 5, 5⟩⟩

/-- A 4 × 4 frame filled with the color `(10,20,30)`. -/
def uniFrame44 : Frame := ⟨4, 4, fun _ _ => ⟨10, 20, 30⟩⟩

/-- A 480 × 640 (VGA) frame with a non-uniform coordinate pattern. -/
def patFrame : Frame := ⟨480, 640, fun y x => ⟨x % 256, y % 256, (x + y) % 256⟩⟩

/-- A 1 × 1 black frame. -/
def oneFrame : Frame := ⟨1, 1, fun _ _ => ⟨0, 0, 0⟩⟩

/-- A source that opens, reports 1920 frames, but delivers only frames 0–2
before signalling end of stream. -/
def eosSource : Source := ⟨true, 1920, fun i => if i < 3 then some oneFrame else none⟩

/-- A healthy 10-frame source. -/
def okSource : Source := ⟨true, 10, fun _ => some oneFrame⟩

/-- A source that fails to open. -/
def badSource : Source := ⟨false, 0, fun _ => none⟩

/-- An all-black initial art image. -/
def zeroImage : Image := fun _ _ => ⟨0, 0, 0⟩

/-! ## Lemmas about the binary32 model -/

theorem msbAux_spec (f : ℕ) : ∀ n, 1 ≤ n → n ≤ f →
    2 ^ msbAux f n ≤ n ∧ n < 2 ^ (msbAux f n + 1) := by
  induction f with
  | zero => intro n h1 h2; omega
  | succ f ih =>
    intro n h1 h2
    by_cases h : n < 2
    · have he : msbAux (f + 1) n = 0 := by simp [msbAux, h]
      rw [he]; simp; omega
    · have he : msbAux (f + 1) n = msbAux f (n / 2) + 1 := by simp [msbAux, h]
      obtain ⟨l, u⟩ := ih (n / 2) (by omega) (by omega)
      rw [he]
      have e1 : 2 ^ (msbAux f (n / 2) + 1) = 2 * 2 ^ msbAux f (n / 2) := by ring
      have e2 : 2 ^ (msbAux f (n / 2) + 1 + 1) = 2 * 2 ^ (msbAux f (n / 2) + 1) := by ring
      omega

theorem msb_spec (n : ℕ) (hn : 1 ≤ n) : 2 ^ msb n ≤ n ∧ n < 2 ^ (msb n + 1) :=
  msbAux_spec n n hn le_rfl

theorem log2q_spec (q : ℚ) (hq : 0 < q) :
    (2 : ℚ) ^ log2q q ≤ q ∧ q < 2 ^ (log2q q + 1) := by
  by_cases h1 : 1 ≤ q
  · rw [log2q, if_pos h1]
    have hfl : 1 ≤ ⌊q⌋₊ := Nat.le_floor (by exact_mod_cast h1)
    obtain ⟨l, u⟩ := msb_spec ⌊q⌋₊ hfl
    constructor
    · have e : (2 : ℚ) ^ ((msb ⌊q⌋₊ : ℕ) : ℤ) = ((2 ^ msb ⌊q⌋₊ : ℕ) : ℚ) := by
        rw [zpow_natCast]; push_cast; ring
      rw [e]
      exact le_trans (by exact_mod_cast l) (Nat.floor_le hq.le)
    · have e : ((msb ⌊q⌋₊ : ℕ) : ℤ) + 1 = ((msb ⌊q⌋₊ + 1 : ℕ) : ℤ) := by push_cast; ring
      rw [e]
      have e2 : (2 : ℚ) ^ ((msb ⌊q⌋₊ + 1 : ℕ) : ℤ) = ((2 ^ (msb ⌊q⌋₊ + 1) : ℕ) : ℚ) := by
        rw [zpow_natCast]; push_cast; ring
      rw [e2]
      calc q < ⌊q⌋₊ + 1 := Nat.lt_floor_add_one q
        _ ≤ ((2 ^ (msb ⌊q⌋₊ + 1) : ℕ) : ℚ) := by exact_mod_cast u
  · push_neg at h1
    have hqi : 1 < q⁻¹ := one_lt_inv hq h1
    have hm2 : 2 ≤ ⌈q⁻¹⌉₊ := by
      have : 1 < ⌈q⁻¹⌉₊ := Nat.lt_ceil.2 (by exact_mod_cast hqi)
      omega
    rw [log2q, if_neg (by linarith), clog2, if_neg (by omega)]
    obtain ⟨l, u⟩ := msb_spec (⌈q⁻¹⌉₊ - 1) (by omega)
    set m := ⌈q⁻¹⌉₊ with hm
    set M := msb (m - 1) with hM
    have hceil : q⁻¹ ≤ ((2 ^ (M + 1) : ℕ) : ℚ) := by
      refine le_trans (Nat.le_ceil q⁻¹) ?_
      exact_mod_cast (by omega : m ≤ 2 ^ (M + 1))
    have hlow : ((2 ^ M : ℕ) : ℚ) < q⁻¹ := by
      have h3 : ((m - 1 : ℕ) : ℚ) < q⁻¹ := by
        have h4 : ((m : ℕ) : ℚ) < q⁻¹ + 1 := Nat.ceil_lt_add_one (by positivity)
        have h5 : ((m - 1 : ℕ) : ℚ) = (m : ℚ) - 1 := by
          push_cast [Nat.cast_sub (by omega : 1 ≤ m)]; ring
        rw [h5]; linarith
      exact lt_of_le_of_lt (by exact_mod_cast l) h3
    constructor
    · -- 2 ^ (-(M+1)) ≤ q
      have e : (2 : ℚ) ^ (-((M + 1 : ℕ) : ℤ)) = (((2 ^ (M + 1) : ℕ) : ℚ))⁻¹ := by
        rw [zpow_neg, zpow_natCast]; push_cast; ring
      rw [e]
      calc (((2 ^ (M + 1) : ℕ) : ℚ))⁻¹ ≤ (q⁻¹)⁻¹ := inv_le_inv_of_le (by positivity) hceil
        _ = q := inv_inv q
    · -- q < 2 ^ (-(M+1) + 1) = 2 ^ (-M)
      have e : -((M + 1 : ℕ) : ℤ) + 1 = -(M : ℤ) := by push_cast; ring
      rw [e]
      have e2 : (2 : ℚ) ^ (-(M : ℤ)) = (((2 ^ M : ℕ) : ℚ))⁻¹ := by
        rw [zpow_neg, zpow_natCast]; push_cast; ring
      rw [e2]
      calc q = (q⁻¹)⁻¹ := (inv_inv q).symm
        _ < (((2 ^ M : ℕ) : ℚ))⁻¹ := inv_lt_inv_of_lt (by positivity) hlow

theorem log2q_eq (q : ℚ) (L : ℤ) (hq : 0 < q)
    (h1 : (2 : ℚ) ^ L ≤ q) (h2 : q < 2 ^ (L + 1)) : log2q q = L := by
  obtain ⟨l, u⟩ := log2q_spec q hq
  by_contra hne
  rcases lt_or_gt_of_ne hne with hlt | hgt
  · have : (2 : ℚ) ^ (log2q q + 1) ≤ 2 ^ L :=
      zpow_le_zpow_right₀ (by norm_num) (by omega)
    linarith
  · have : (2 : ℚ) ^ (L + 1) ≤ 2 ^ log2q q :=
      zpow_le_zpow_right₀ (by norm_num) (by omega)
    linarith

theorem rnEven_eq_down (q : ℚ) (n : ℤ) (h1 : (n : ℚ) ≤ q) (h2 : q < n + 1 / 2) :
    rnEven q = n := by
  have hfl : ⌊q⌋ = n := Int.floor_eq_iff.2 ⟨h1, by push_cast; linarith⟩
  rw [rnEven, hfl, if_pos (by push_cast; linarith)]

theorem rnEven_eq_up (q : ℚ) (n : ℤ) (h1 : (n : ℚ) - 1 / 2 < q) (h2 : q < n) :
    rnEven q = n := by
  have hfl : ⌊q⌋ = n - 1 := Int.floor_eq_iff.2 ⟨by push_cast; linarith, by push_cast; linarith⟩
  rw [rnEven, hfl, if_neg (by push_cast; linarith), if_pos (by push_cast; linarith)]
  omega

theorem rnEven_eq_tie (q : ℚ) (n : ℤ) (h1 : q = (n : ℚ) + 1 / 2) (h2 : 2 ∣ n) :
    rnEven q = n := by
  have hfl : ⌊q⌋ = n := Int.floor_eq_iff.2 ⟨by rw [h1]; linarith, by rw [h1]; push_cast; linarith⟩
  rw [rnEven, hfl, if_neg (by rw [h1]; push_cast; linarith),
    if_neg (by rw [h1]; push_cast; linarith), if_pos h2]

theorem rnEven_intCast (z : ℤ) : rnEven (z : ℚ) = z := by
  rw [rnEven, Int.floor_intCast, if_pos (by norm_num)]

theorem roundF32_eq (q : ℚ) (L n : ℤ) (hq : 0 < q)
    (hL1 : (2 : ℚ) ^ L ≤ q) (hL2 : q < 2 ^ (L + 1))
    (hrn : rnEven (q * 2 ^ (23 - L)) = n) : roundF32 q = (n : ℚ) * 2 ^ (L - 23) := by
  rw [roundF32, if_pos hq, roundPos, log2q_eq q L hq hL1 hL2]
  have e : -(L - 23) = 23 - L := by ring
  rw [e, hrn]

theorem roundF32_zero : roundF32 0 = 0 := by
  rw [roundF32, if_neg (by norm_num), if_pos rfl]

theorem roundF32_natCast (n : ℕ) (hn : n ≤ 2 ^ 24) : roundF32 (n : ℚ) = n := by
  rcases Nat.eq_zero_or_pos n with h0 | hpos
  · subst h0; push_cast; exact roundF32_zero
  · obtain ⟨l, u⟩ := msb_spec n hpos
    set L := msb n with hL
    have hq : (0 : ℚ) < n := by exact_mod_cast hpos
    have hp24 : (2 : ℕ) ^ 24 = 16777216 := by norm_num
    have hp25 : (2 : ℕ) ^ 25 = 33554432 := by norm_num
    have hL24 : L ≤ 24 := by
      by_contra hh
      have h25 : (2 : ℕ) ^ 25 ≤ 2 ^ L := Nat.pow_le_pow_right (by norm_num) (by omega)
      omega
    have hcharLow : (2 : ℚ) ^ (L : ℤ) ≤ (n : ℚ) := by
      rw [zpow_natCast]; exact_mod_cast l
    have hcharHigh : (n : ℚ) < 2 ^ ((L : ℤ) + 1) := by
      have e : (L : ℤ) + 1 = ((L + 1 : ℕ) : ℤ) := by push_cast; ring
      rw [e, zpow_natCast]; exact_mod_cast u
    rcases Nat.lt_or_ge L 24 with hlt | hge
    · -- L ≤ 23: the scaled significand n * 2^(23-L) is an integer
      set d : ℕ := 23 - L with hd
      have hdL : (23 : ℤ) - (L : ℤ) = (d : ℤ) := by omega
      have hrn : rnEven ((n : ℚ) * 2 ^ ((23 : ℤ) - (L : ℤ))) = ((n * 2 ^ d : ℕ) : ℤ) := by
        rw [hdL, zpow_natCast]
        have e : (n : ℚ) * 2 ^ d = (((n * 2 ^ d : ℕ) : ℤ) : ℚ) := by push_cast; ring
        rw [e, rnEven_intCast]
      have := roundF32_eq (n : ℚ) (L : ℤ) ((n * 2 ^ d : ℕ) : ℤ) hq hcharLow hcharHigh hrn
      rw [this]
      have e2 : (L : ℤ) - 23 = -(d : ℤ) := by omega
      rw [e2, zpow_neg, zpow_natCast]
      have h2d : ((2 : ℚ) ^ d) ≠ 0 := by positivity
      push_cast
      field_simp
    · -- L = 24, so n = 2^24
      have hn24 : n = 2 ^ 24 := by
        have h24 : (2 : ℕ) ^ 24 ≤ 2 ^ L := Nat.pow_le_pow_right (by norm_num) hge
        omega
      subst hn24
      have hrn : rnEven (((2 ^ 24 : ℕ) : ℚ) * 2 ^ ((23 : ℤ) - (L : ℤ))) = ((2 ^ 23 : ℕ) : ℤ) := by
        have hL' : (L : ℤ) = 24 := by omega
        have e : ((2 ^ 24 : ℕ) : ℚ) * 2 ^ ((23 : ℤ) - (L : ℤ)) = (((2 ^ 23 : ℕ) : ℤ) : ℚ) := by
          rw [hL']
          norm_num
        rw [e, rnEven_intCast]
      have := roundF32_eq ((2 ^ 24 : ℕ) : ℚ) (L : ℤ) ((2 ^ 23 : ℕ) : ℤ) hq hcharLow hcharHigh hrn
      rw [this]
      have hL' : (L : ℤ) = 24 := by omega
      rw [hL']
      norm_num

theorem addF32_natCast (a b : ℕ) (h : a + b ≤ 2 ^ 24) :
    addF32 (a : ℚ) (b : ℚ) = ((a + b : ℕ) : ℚ) := by
  rw [addF32]
  have e : (a : ℚ) + b = ((a + b : ℕ) : ℚ) := by push_cast; ring
  rw [e, roundF32_natCast _ h]

theorem natToF32_natCast (n : ℕ) (h : n ≤ 2 ^ 24) : natToF32 n = (n : ℚ) := by
  rw [natToF32, roundF32_natCast _ h]

theorem f32toByte_natCast (c : ℕ) : f32toByte (c : ℚ) = c := by
  rw [f32toByte, Int.floor_natCast]
  simp

theorem divF32_avg (n c : ℕ) (hn : 0 < n) (hn24 : n ≤ 2 ^ 24) (hc : c ≤ 2 ^ 24) :
    divF32 ((n * c : ℕ) : ℚ) (natToF32 n) = (c : ℚ) := by
  rw [natToF32_natCast n hn24, divF32]
  have hne : (n : ℚ) ≠ 0 := by
    have : (0 : ℚ) < n := by exact_mod_cast hn
    linarith
  have e : ((n * c : ℕ) : ℚ) / (n : ℚ) = (c : ℚ) := by
    push_cast
    field_simp
  rw [e, roundF32_natCast _ hc]

theorem addF32_sat : addF32 (16777216 : ℚ) 1 = 16777216 := by
  rw [addF32]
  have e : (16777216 : ℚ) + 1 = 16777217 := by norm_num
  rw [e]
  have hrn : rnEven ((16777217 : ℚ) * 2 ^ ((23 : ℤ) - 24)) = 8388608 := by
    apply rnEven_eq_tie
    · norm_num
    · exact ⟨4194304, by norm_num⟩
  have := roundF32_eq 16777217 24 8388608 (by norm_num) (by norm_num) (by norm_num) hrn
  rw [this]
  norm_num

theorem natToF32_big : natToF32 16781312 = (16781312 : ℚ) := by
  rw [natToF32]
  have e : ((16781312 : ℕ) : ℚ) = (16781312 : ℚ) := by norm_num
  rw [e]
  have hrn : rnEven ((16781312 : ℚ) * 2 ^ ((23 : ℤ) - 24)) = 8390656 := by
    apply rnEven_eq_down
    · norm_num
    · norm_num
  have := roundF32_eq 16781312 24 8390656 (by norm_num) (by norm_num) (by norm_num) hrn
  rw [this]
  norm_num

theorem divF32_lost : f32toByte (divF32 (16777216 : ℚ) (natToF32 16781312)) = 0 := by
  rw [natToF32_big, divF32]
  have e : (16777216 : ℚ) / 16781312 = 4096 / 4097 := by norm_num
  rw [e]
  have hrn : rnEven ((4096 / 4097 : ℚ) * 2 ^ ((23 : ℤ) - (-1)) ) = 16773121 := by
    apply rnEven_eq_up
    · norm_num
    · norm_num
  have := roundF32_eq (4096 / 4097) (-1) 16773121 (by norm_num) (by norm_num) (by norm_num) hrn
  rw [this, f32toByte]
  have hfl : ⌊((16773121 : ℤ) : ℚ) * 2 ^ ((-1 : ℤ) - 23)⌋ = 0 := by
    rw [Int.floor_eq_iff]
    constructor
    · norm_num
    · norm_num
  rw [hfl]
  rfl

/-! ## Uniform frames and the float accumulation loop -/

theorem foldl_replicate_iterate {α β : Type} (g : α → β → α) (n : ℕ) (a : α) (b : β) :
    (List.replicate n b).foldl g a = (fun s => g s b)^[n] a := by
  induction n generalizing a with
  | zero => rfl
  | succ n ih =>
    rw [List.replicate_succ, List.foldl_cons, ih, Function.iterate_succ_apply]

theorem flatMap_const_replicate {α : Type} (l : List α) (h : ℕ) (c : Color) :
    (l.flatMap fun _ => List.replicate h c) = List.replicate (l.length * h) c := by
  induction l with
  | nil => simp
  | cons x xs ih =>
    rw [List.flatMap_cons, ih, List.length_cons]
    rw [show (xs.length + 1) * h = h + xs.length * h by ring, List.replicate_add]

theorem framePixels_uniform (h w : ℕ) (c : Color) :
    framePixels ⟨h, w, fun _ _ => c⟩ = List.replicate (w * h) c := by
  rw [framePixels]
  have e : (fun x : ℕ => (List.range h).map fun _ : ℕ => c) = fun _ : ℕ => List.replicate h c := by
    funext x
    rw [List.map_const', List.length_range]
  simp only [e]
  rw [flatMap_const_replicate, List.length_range]

theorem sumIter_exact (k c : ℕ) (h : k * c ≤ 2 ^ 24) :
    (fun s => addF32 s (c : ℚ))^[k] 0 = ((k * c : ℕ) : ℚ) := by
  induction k with
  | zero => simp
  | succ k ih =>
    have hk : k * c ≤ 2 ^ 24 := le_trans (Nat.mul_le_mul_right c (Nat.le_succ k)) h
    rw [Function.iterate_succ_apply', ih hk]
    have e : k * c + c = (k + 1) * c := by ring
    rw [addF32_natCast (k * c) c (by omega), e]

theorem sumIter_sat (k : ℕ) :
    (fun s => addF32 s ((1 : ℕ) : ℚ))^[k] 0 = ((min k (2 ^ 24) : ℕ) : ℚ) := by
  induction k with
  | zero => simp
  | succ k ih =>
    rw [Function.iterate_succ_apply', ih]
    rcases Nat.lt_or_ge k (2 ^ 24) with hlt | hge
    · rw [min_eq_left hlt.le, min_eq_left (by omega)]
      rw [addF32_natCast k 1 (by omega)]
    · rw [min_eq_right hge, min_eq_right (by omega)]
      have e : (((2 : ℕ) ^ 24 : ℕ) : ℚ) = (16777216 : ℚ) := by norm_num
      have e1 : ((1 : ℕ) : ℚ) = (1 : ℚ) := by norm_num
      rw [e, e1, addF32_sat]

theorem avg_channel_exact (n cv : ℕ) (h1 : 0 < n) (h2 : n ≤ 2 ^ 24) (h3 : cv ≤ 255)
    (h4 : n * cv ≤ 2 ^ 24) :
    f32toByte (divF32 ((fun s => addF32 s ((cv : ℕ) : ℚ))^[n] 0) (natToF32 n)) = cv := by
  rw [sumIter_exact n cv h4, divF32_avg n cv h1 h2 (by omega), f32toByte_natCast]

theorem sumChan_replicate (sel : Color → ℕ) (n : ℕ) (p : Color) :
    sumChan sel (List.replicate n p) = (fun s => addF32 s ((sel p : ℕ) : ℚ))^[n] 0 := by
  rw [sumChan, foldl_replicate_iterate]

theorem bigChan :
    f32toByte (divF32 ((fun s => addF32 s ((1 : ℕ) : ℚ))^[16781312] 0) (natToF32 16781312)) = 0 := by
  rw [sumIter_sat 16781312]
  rw [show ((min 16781312 (2 ^ 24) : ℕ) : ℚ) = (16777216 : ℚ) by norm_num]
  exact divF32_lost

/-- C2 counterexample: on the frame `bigFrame`, which is filled entirely with
the color `(1,1,1)`, `GetFrameAverageColor` returns `(0,0,0)`, not `(1,1,1)`:
the `float` accumulators stop growing at 2²⁴ = 16777216 < 16781312 pixels, so
each channel average is 16777216/16781312 < 1, which truncates to 0. -/
theorem claim_C2_counterexample :
    GetFrameAverageColor bigFrame = Color.mk 0 0 0 ∧ Color.mk 0 0 0 ≠ Color.mk 1 1 1 := by
  constructor
  · have ht : framePixels bigFrame = List.replicate 16781312 (Color.mk 1 1 1) := by
      have e := framePixels_uniform 1 16781312 (Color.mk 1 1 1)
      rw [show (16781312 * 1 : ℕ) = 16781312 from rfl] at e
      exact e
    have key : GetFrameAverageColor bigFrame = Color.mk
        (f32toByte (divF32 (sumChan Color.b (framePixels bigFrame)) (natToF32 16781312)))
        (f32toByte (divF32 (sumChan Color.g (framePixels bigFrame)) (natToF32 16781312)))
        (f32toByte (divF32 (sumChan Color.r (framePixels bigFrame)) (natToF32 16781312))) := rfl
    rw [key, ht]
    rw [sumChan_replicate Color.b 16781312 (Color.mk 1 1 1),
        sumChan_replicate Color.g 16781312 (Color.mk 1 1 1),
        sumChan_replicate Color.r 16781312 (Color.mk 1 1 1)]
    show Color.mk
        (f32toByte (divF32 ((fun s => addF32 s ((1 : ℕ) : ℚ))^[16781312] 0) (natToF32 16781312)))
        (f32toByte (divF32 ((fun s => addF32 s ((1 : ℕ) : ℚ))^[16781312] 0) (natToF32 16781312)))
        (f32toByte (divF32 ((fun s => addF32 s ((1 : ℕ) : ℚ))^[16781312] 0) (natToF32 16781312)))
        = Color.mk 0 0 0
    rw [bigChan]
  · decide

/-- C2 amended: on a frame filled entirely with the color `(r,g,b)`, the
average-color reduction is exact provided the frame is small enough that no
float rounding occurs: `H·W ≤ 2²⁴` and `H·W·c ≤ 2²⁴` for each channel `c`. -/
theorem claim_C2_amended (h w b g r : ℕ) (hh : 0 < h) (hw : 0 < w)
    (hb : b ≤ 255) (hg : g ≤ 255) (hr : r ≤ 255)
    (hn : h * w ≤ 2 ^ 24)
    (hnb : h * w * b ≤ 2 ^ 24) (hng : h * w * g ≤ 2 ^ 24) (hnr : h * w * r ≤ 2 ^ 24) :
    GetFrameAverageColor ⟨h, w, fun _ _ => ⟨b, g, r⟩⟩ = ⟨b, g, r⟩ := by
  have key : GetFrameAverageColor ⟨h, w, fun _ _ => ⟨b, g, r⟩⟩ = Color.mk
      (f32toByte (divF32 (sumChan Color.b (framePixels ⟨h, w, fun _ _ => ⟨b, g, r⟩⟩))
        (natToF32 (h * w))))
      (f32toByte (divF32 (sumChan Color.g (framePixels ⟨h, w, fun _ _ => ⟨b, g, r⟩⟩))
        (natToF32 (h * w))))
      (f32toByte (divF32 (sumChan Color.r (framePixels ⟨h, w, fun _ _ => ⟨b, g, r⟩⟩))
        (natToF32 (h * w)))) := rfl
  rw [key, framePixels_uniform h w ⟨b, g, r⟩]
  rw [sumChan_replicate Color.b (w * h) ⟨b, g, r⟩,
      sumChan_replicate Color.g (w * h) ⟨b, g, r⟩,
      sumChan_replicate Color.r (w * h) ⟨b, g, r⟩]
  show Color.mk
      (f32toByte (divF32 ((fun s => addF32 s ((b : ℕ) : ℚ))^[w * h] 0) (natToF32 (h * w))))
      (f32toByte (divF32 ((fun s => addF32 s ((g : ℕ) : ℚ))^[w * h] 0) (natToF32 (h * w))))
      (f32toByte (divF32 ((fun s => addF32 s ((r : ℕ) : ℚ))^[w * h] 0) (natToF32 (h * w))))
      = Color.mk b g r
  rw [show w * h = h * w from Nat.mul_comm w h]
  rw [avg_channel_exact (h * w) b (Nat.mul_pos hh hw) hn hb hnb,
      avg_channel_exact (h * w) g (Nat.mul_pos hh hw) hn hg hng,
      avg_channel_exact (h * w) r (Nat.mul_pos hh hw) hn hr hnr]

/-- C2 witness: the amended theorem applied to a concrete 2 × 3 frame of
color `(5,7,9)`. -/
theorem claim_C2_witness :
    GetFrameAverageColor ⟨2, 3, fun _ _ => ⟨5, 7, 9⟩⟩ = ⟨5, 7, 9⟩ :=
  claim_C2_amended 2 3 5 7 9 (by decide) (by decide) (by decide) (by decide) (by decide)
    (by decide) (by decide) (by decide) (by decide)

/-! ## Lemmas about GetFramePixelStrip -/

theorem stripStep_strip_sInt0 (ss si : ℕ) (st : StripState) (p : Color) :
    (stripStep ss si 0 st p).strip = st.strip := by
  simp only [stripStep]
  split
  · rfl
  · rfl

theorem foldl_strip_sInt0 (ss si : ℕ) : ∀ (l : List Color) (st : StripState),
    (l.foldl (stripStep ss si 0) st).strip = st.strip := by
  intro l
  induction l with
  | nil => intro st; rfl
  | cons p ps ih => intro st; rw [List.foldl_cons, ih, stripStep_strip_sInt0]

theorem writeSlots_length (v : Color) (ss : ℕ) : ∀ (k : ℕ) (l : List Color) (i : ℕ),
    ((writeSlots v ss k l i).1).length = l.length := by
  intro k
  induction k with
  | zero => intro l i; rfl
  | succ k ih =>
    intro l i
    rw [writeSlots]
    split
    · rw [ih, List.length_set]
    · exact ih l i

theorem stripStep_length (ss si sInt : ℕ) (st : StripState) (p : Color) :
    ((stripStep ss si sInt st p).strip).length = st.strip.length := by
  simp only [stripStep]
  split
  · exact writeSlots_length _ _ _ _ _
  · rfl

theorem foldl_strip_length (ss si sInt : ℕ) : ∀ (l : List Color) (st : StripState),
    ((l.foldl (stripStep ss si sInt) st).strip).length = st.strip.length := by
  intro l
  induction l with
  | nil => intro st; rfl
  | cons p ps ih => intro st; rw [List.foldl_cons, ih, stripStep_length]

theorem GetFramePixelStrip_length (f : Frame) (ss : ℕ) :
    (GetFramePixelStrip f ss).length = ss := by
  have key : GetFramePixelStrip f ss = ((framePixels f).foldl
      (stripStep ss (f.h * f.w / ss) (f.h * f.w / ss / ss))
      ⟨List.replicate ss ⟨0, 0, 0⟩, 0, 0, 0, 0, 0⟩).strip := rfl
  rw [key, foldl_strip_length]
  exact List.length_replicate ss _

theorem writeSlotsC_eq (v : Color) (ss : ℕ) : ∀ (k : ℕ) (l : List Color) (i : ℕ),
    l.length = ss → writeSlotsC v ss k l i = some (writeSlots v ss k l i) := by
  intro k
  induction k with
  | zero => intro l i _; rfl
  | succ k ih =>
    intro l i hlen
    rw [writeSlotsC, writeSlots]
    by_cases hi : i < ss
    · rw [if_pos hi, if_pos hi, if_pos (show i < l.length by omega)]
      exact ih _ _ (by rw [List.length_set, hlen])
    · rw [if_neg hi, if_neg hi]
      exact ih l i hlen

theorem stripStepC_eq (ss si sInt : ℕ) (st : StripState) (p : Color)
    (hlen : st.strip.length = ss) :
    stripStepC ss si sInt st p = some (stripStep ss si sInt st p) := by
  simp only [stripStepC, stripStep]
  split
  · rw [writeSlotsC_eq _ _ _ _ _ hlen]
  · rfl

theorem foldStripC_eq (ss si sInt : ℕ) : ∀ (l : List Color) (st : StripState),
    st.strip.length = ss →
    foldStripC ss si sInt l st = some (l.foldl (stripStep ss si sInt) st) := by
  intro l
  induction l with
  | nil => intro st _; rfl
  | cons p ps ih =>
    intro st hlen
    rw [foldStripC, stripStepC_eq ss si sInt st p hlen, List.foldl_cons]
    exact ih _ (by rw [stripStep_length, hlen])

/-- C9: whenever `strip_interval = (H*W / strip_size) / strip_size` is 0 under
integer division (e.g. any frame with fewer than `strip_size²` pixels), the
inner replication loop never runs, so no strip slot is ever filled and the
result is `strip_size` copies of the default zero color, whatever the frame's
pixels are. -/
theorem claim_C9_strip_stays_default (f : Frame) (ss : ℕ) (hss : 0 < ss)
    (hint : f.h * f.w / ss / ss = 0) :
    GetFramePixelStrip f ss = List.replicate ss (Color.mk 0 0 0) := by
  have key : GetFramePixelStrip f ss = ((framePixels f).foldl
      (stripStep ss (f.h * f.w / ss) (f.h * f.w / ss / ss))
      ⟨List.replicate ss ⟨0, 0, 0⟩, 0, 0, 0, 0, 0⟩).strip := rfl
  rw [key, hint, foldl_strip_sInt0]

/-- C9 witness: a 480 × 640 frame with non-uniform contents and
`strip_size = ART_HEIGHT = 1080` (307200/1080/1080 = 0). -/
theorem claim_C9_witness :
    GetFramePixelStrip patFrame 1080 = List.replicate 1080 (Color.mk 0 0 0) :=
  claim_C9_strip_stays_default patFrame 1080 (by decide) (by decide)

/-- C10: for every frame and every `strip_size > 0`, every strip write is in
range — the bounds-checked model never faults and agrees with the plain one —
and the returned strip has exactly `strip_size` entries, for any values of
`sample_interval` and `strip_interval`. -/
theorem claim_C10_strip_writes_safe (f : Frame) (ss : ℕ) (hss : 0 < ss) :
    GetFramePixelStripSafe f ss = some (GetFramePixelStrip f ss) ∧
    (GetFramePixelStrip f ss).length = ss := by
  constructor
  · have h := foldStripC_eq ss (f.h * f.w / ss) (f.h * f.w / ss / ss) (framePixels f)
      ⟨List.replicate ss ⟨0, 0, 0⟩, 0, 0, 0, 0, 0⟩ (List.length_replicate ss _)
    simp only [GetFramePixelStripSafe]
    rw [h]
    rfl
  · exact GetFramePixelStrip_length f ss

/-- C10 witness: the safety theorem applied to the 1 × 1 black frame with
`strip_size = 5`. -/
theorem claim_C10_witness :
    GetFramePixelStripSafe oneFrame 5 = some (GetFramePixelStrip oneFrame 5) ∧
    (GetFramePixelStrip oneFrame 5).length = 5 :=
  claim_C10_strip_writes_safe oneFrame 5 (by decide)

theorem stripMean_exact (si cv : ℕ) (hcv : cv ≤ 255) (hsmall : (si + 1) * 255 ≤ 2 ^ 24) :
    f32toByte (divF32 (addF32 ((si * cv : ℕ) : ℚ) ((cv : ℕ) : ℚ)) (natToF32 (si + 1))) = cv := by
  have hb1 : (si + 1) * cv ≤ 2 ^ 24 :=
    le_trans (Nat.mul_le_mul_left (si + 1) hcv) hsmall
  have hb2 : si + 1 ≤ 2 ^ 24 := by
    have : (si + 1) * 1 ≤ (si + 1) * 255 := Nat.mul_le_mul_left (si + 1) (by omega)
    omega
  have hexp : (si + 1) * cv = si * cv + cv := by ring
  rw [addF32_natCast (si * cv) cv (by omega : si * cv + cv ≤ 2 ^ 24)]
  rw [show si * cv + cv = (si + 1) * cv by ring]
  rw [divF32_avg (si + 1) cv (by omega) hb2 (by omega), f32toByte_natCast]

theorem stripStep_trigger (ss si sInt b g r : ℕ) (st : StripState)
    (hb : b ≤ 255) (hg : g ≤ 255) (hr : r ≤ 255)
    (hsmall : (si + 1) * 255 ≤ 2 ^ 24)
    (hcnt : st.count = si)
    (h2 : st.s0 = ((st.count * b : ℕ) : ℚ))
    (h3 : st.s1 = ((st.count * g : ℕ) : ℚ))
    (h4 : st.s2 = ((st.count * r : ℕ) : ℚ)) :
    stripStep ss si sInt st (Color.mk b g r)
      = ⟨(writeSlots (Color.mk b g r) ss sInt st.strip st.sidx).1, 0,
         (writeSlots (Color.mk b g r) ss sInt st.strip st.sidx).2, 0, 0, 0⟩ := by
  simp only [stripStep]
  rw [if_pos (show si < st.count + 1 by omega)]
  have hv0 : f32toByte (divF32 (addF32 st.s0 ((b : ℕ) : ℚ)) (natToF32 (st.count + 1))) = b := by
    rw [h2, hcnt]
    exact stripMean_exact si b hb hsmall
  have hv1 : f32toByte (divF32 (addF32 st.s1 ((g : ℕ) : ℚ)) (natToF32 (st.count + 1))) = g := by
    rw [h3, hcnt]
    exact stripMean_exact si g hg hsmall
  have hv2 : f32toByte (divF32 (addF32 st.s2 ((r : ℕ) : ℚ)) (natToF32 (st.count + 1))) = r := by
    rw [h4, hcnt]
    exact stripMean_exact si r hr hsmall
  rw [hv0, hv1, hv2]

theorem stripStep_accum (ss si sInt b g r : ℕ) (st : StripState)
    (hb : b ≤ 255) (hg : g ≤ 255) (hr : r ≤ 255)
    (hsmall : (si + 1) * 255 ≤ 2 ^ 24)
    (hc : ¬ si < st.count + 1)
    (h2 : st.s0 = ((st.count * b : ℕ) : ℚ))
    (h3 : st.s1 = ((st.count * g : ℕ) : ℚ))
    (h4 : st.s2 = ((st.count * r : ℕ) : ℚ)) :
    stripStep ss si sInt st (Color.mk b g r)
      = ⟨st.strip, st.count + 1, st.sidx,
         (((st.count + 1) * b : ℕ) : ℚ), (((st.count + 1) * g : ℕ) : ℚ),
         (((st.count + 1) * r : ℕ) : ℚ)⟩ := by
  have hcb : (st.count + 1) * b ≤ 2 ^ 24 :=
    le_trans (Nat.mul_le_mul (by omega) hb) hsmall
  have hcg : (st.count + 1) * g ≤ 2 ^ 24 :=
    le_trans (Nat.mul_le_mul (by omega) hg) hsmall
  have hcr : (st.count + 1) * r ≤ 2 ^ 24 :=
    le_trans (Nat.mul_le_mul (by omega) hr) hsmall
  have heb : (st.count + 1) * b = st.count * b + b := by ring
  have heg : (st.count + 1) * g = st.count * g + g := by ring
  have her : (st.count + 1) * r = st.count * r + r := by ring
  simp only [stripStep]
  rw [if_neg hc, h2, h3, h4]
  rw [addF32_natCast (st.count * b) b (by omega), addF32_natCast (st.count * g) g (by omega),
      addF32_natCast (st.count * r) r (by omega)]
  rw [show st.count * b + b = (st.count + 1) * b by ring,
      show st.count * g + g = (st.count + 1) * g by ring,
      show st.count * r + r = (st.count + 1) * r by ring]

theorem writeSlots_mem (v : Color) (ss : ℕ) : ∀ (k : ℕ) (l : List Color) (i : ℕ)
    (x : Color), x ∈ (writeSlots v ss k l i).1 → x ∈ l ∨ x = v := by
  intro k
  induction k with
  | zero => intro l i x hx; exact Or.inl hx
  | succ k ih =>
    intro l i x hx
    rw [writeSlots] at hx
    by_cases hi : i < ss
    · rw [if_pos hi] at hx
      rcases ih _ _ _ hx with hl | hv
      · exact List.mem_or_eq_of_mem_set hl
      · exact Or.inr hv
    · rw [if_neg hi] at hx
      exact ih l i x hx

theorem strip_foldl_uniform (ss si sInt b g r : ℕ)
    (hb : b ≤ 255) (hg : g ≤ 255) (hr : r ≤ 255)
    (hsmall : (si + 1) * 255 ≤ 2 ^ 24) :
    ∀ (l : List Color) (st : StripState),
      (∀ p ∈ l, p = Color.mk b g r) →
      st.count ≤ si →
      st.s0 = ((st.count * b : ℕ) : ℚ) →
      st.s1 = ((st.count * g : ℕ) : ℚ) →
      st.s2 = ((st.count * r : ℕ) : ℚ) →
      (∀ x ∈ st.strip, x = Color.mk b g r ∨ x = Color.mk 0 0 0) →
      ∀ x ∈ (l.foldl (stripStep ss si sInt) st).strip,
        x = Color.mk b g r ∨ x = Color.mk 0 0 0 := by
  intro l
  induction l with
  | nil => intro st _ _ _ _ _ h5; exact h5
  | cons p ps ih =>
    intro st hp h1 h2 h3 h4 h5
    have hpv : p = Color.mk b g r := hp p (List.mem_cons_self p ps)
    subst hpv
    rw [List.foldl_cons]
    by_cases hc : si < st.count + 1
    · have hcnt : st.count = si := by omega
      rw [stripStep_trigger ss si sInt b g r st hb hg hr hsmall hcnt h2 h3 h4]
      refine ih _ (fun q hq => hp q (List.mem_cons_of_mem _ hq)) (Nat.zero_le si) (by norm_num)
        (by norm_num) (by norm_num) ?_
      intro x hx
      rcases writeSlots_mem (Color.mk b g r) ss sInt st.strip st.sidx x hx with hl | hv
      · exact h5 x hl
      · exact Or.inl hv
    · rw [stripStep_accum ss si sInt b g r st hb hg hr hsmall hc h2 h3 h4]
      exact ih _ (fun q hq => hp q (List.mem_cons_of_mem _ hq))
        (show st.count + 1 ≤ si by omega) rfl rfl rfl h5

/-- C3 counterexample: the 2 × 2 frame filled with color `(5,5,5)` and
`output_length = ART_HEIGHT = 1080` yields `sample_interval = 4/1080 = 0` and
`strip_interval = 0`, so no strip slot is ever written: every entry of the
result is the default zero color, not `(5,5,5)`. -/
theorem claim_C3_counterexample :
    GetFramePixelStrip uniFrame22 ART_H = List.replicate ART_H (Color.mk 0 0 0) ∧
    (List.replicate ART_H (Color.mk 0 0 0)).getD 0 (Color.mk 0 0 0) ≠ Color.mk 5 5 5 := by
  constructor
  · have key : GetFramePixelStrip uniFrame22 ART_H = ((framePixels uniFrame22).foldl
        (stripStep ART_H (uniFrame22.h * uniFrame22.w / ART_H)
          (uniFrame22.h * uniFrame22.w / ART_H / ART_H))
        ⟨List.replicate ART_H ⟨0, 0, 0⟩, 0, 0, 0, 0, 0⟩).strip := rfl
    rw [key, show uniFrame22.h * uniFrame22.w / ART_H / ART_H = 0 from rfl, foldl_strip_sInt0]
  · decide

/-- C3 amended: for a frame whose pixels all have color `(r,g,b)` (8-bit
channels) and which is small enough that the per-group float means are exact
(`(H*W/ART_HEIGHT + 1) * 255 ≤ 2²⁴`), the PixelStrip reduction with
`output_length = ART_HEIGHT` returns a sequence of length exactly `ART_HEIGHT`
in which every entry is either that color or the default zero color — slots
the walk never reaches keep their default. -/
theorem claim_C3_amended (h w b g r : ℕ)
    (hb : b ≤ 255) (hg : g ≤ 255) (hr : r ≤ 255)
    (hsmall : (h * w / ART_H + 1) * 255 ≤ 2 ^ 24) :
    (GetFramePixelStrip ⟨h, w, fun _ _ => ⟨b, g, r⟩⟩ ART_H).length = ART_H ∧
    ∀ x ∈ GetFramePixelStrip ⟨h, w, fun _ _ => ⟨b, g, r⟩⟩ ART_H,
      x = Color.mk b g r ∨ x = Color.mk 0 0 0 := by
  constructor
  · exact GetFramePixelStrip_length _ _
  · have key : GetFramePixelStrip ⟨h, w, fun _ _ => ⟨b, g, r⟩⟩ ART_H
        = ((framePixels ⟨h, w, fun _ _ => ⟨b, g, r⟩⟩).foldl
          (stripStep ART_H (h * w / ART_H) (h * w / ART_H / ART_H))
          ⟨List.replicate ART_H ⟨0, 0, 0⟩, 0, 0, 0, 0, 0⟩).strip := rfl
    rw [key]
    apply strip_foldl_uniform ART_H (h * w / ART_H) (h * w / ART_H / ART_H) b g r
      hb hg hr hsmall
    · intro p hp
      rw [framePixels_uniform h w ⟨b, g, r⟩] at hp
      exact List.eq_of_mem_replicate hp
    · exact Nat.zero_le _
    · norm_num
    · norm_num
    · norm_num
    · intro x hx
      exact Or.inr (List.eq_of_mem_replicate hx)

/-- C3 witness: the amended theorem at a 4 × 4 frame of color `(10,20,30)`. -/
theorem claim_C3_witness :
    (GetFramePixelStrip uniFrame44 ART_H).length = ART_H ∧
    ∀ x ∈ GetFramePixelStrip uniFrame44 ART_H,
      x = Color.mk 10 20 30 ∨ x = Color.mk 0 0 0 :=
  claim_C3_amended 4 4 10 20 30 (by decide) (by decide) (by decide) (by decide)

/-! ## Lemmas about the sampling plan -/

theorem planAux_eq_map (fc si : ℕ) : ∀ (n cur : ℕ),
    (∀ k, k < n → cur + k * si < fc) →
    planAux fc si cur n = (List.range n).map (fun k => cur + k * si) := by
  intro n
  induction n with
  | zero => intro cur _; rfl
  | succ n ih =>
    intro cur hk
    have hcur : cur < fc := by
      have := hk 0 (by omega)
      simpa using this
    rw [planAux, if_pos hcur, List.range_succ_eq_map, List.map_cons, List.map_map]
    have e1 : cur + 0 * si = cur := by ring
    rw [e1]
    have e2 : ((fun k => cur + k * si) ∘ Nat.succ) = fun k => (cur + si) + k * si := by
      funext k
      simp [Function.comp]
      ring
    rw [e2, ih (cur + si) ?_]
    intro k hkn
    have := hk (k + 1) (by omega)
    have e3 : cur + (k + 1) * si = cur + si + k * si := by ring
    omega

theorem samplePlan_bounds (fc tc : ℕ) (htc : 0 < tc) (hle : tc ≤ fc) :
    ∀ k, k < tc → k * (fc / tc) < fc := by
  intro k hk
  have hsi1 : 1 ≤ fc / tc := (Nat.one_le_div_iff htc).2 hle
  have hfull : fc / tc * tc ≤ fc := Nat.div_mul_le_self fc tc
  have hmono : k * (fc / tc) ≤ (tc - 1) * (fc / tc) :=
    Nat.mul_le_mul_right (fc / tc) (by omega)
  have hsplit : (tc - 1) * (fc / tc) + fc / tc = tc * (fc / tc) := by
    have e : tc - 1 + 1 = tc := by omega
    calc (tc - 1) * (fc / tc) + fc / tc = (tc - 1 + 1) * (fc / tc) := by ring
      _ = tc * (fc / tc) := by rw [e]
  have hcomm : tc * (fc / tc) = fc / tc * tc := by ring
  omega

/-- C5: for all `frame_count ≥ target_columns > 0`, the sampling plan is the
sequence `0, si, 2·si, …` with `si = frame_count / target_columns`; it has
length exactly `target_columns`, is non-decreasing, and every element lies in
`[0, frame_count)`. -/
theorem claim_C5_plan_shape (fc tc : ℕ) (htc : 0 < tc) (hle : tc ≤ fc) :
    samplePlan fc tc = (List.range tc).map (fun k => k * (fc / tc)) ∧
    (samplePlan fc tc).length = tc ∧
    (samplePlan fc tc).Pairwise (· ≤ ·) ∧
    ∀ x ∈ samplePlan fc tc, x < fc := by
  have hmap : samplePlan fc tc = (List.range tc).map (fun k => k * (fc / tc)) := by
    rw [samplePlan, planAux_eq_map fc (fc / tc) tc 0 ?_]
    · apply List.map_congr_left
      intro k _
      ring
    · intro k hk
      have := samplePlan_bounds fc tc htc hle k hk
      omega
  refine ⟨hmap, ?_, ?_, ?_⟩
  · rw [hmap, List.length_map, List.length_range]
  · rw [hmap]
    refine List.Pairwise.map _ ?_ (List.pairwise_lt_range tc)
    intro a b hab
    exact Nat.mul_le_mul_right (fc / tc) (le_of_lt hab)
  · intro x hx
    rw [hmap] at hx
    obtain ⟨k, hk, rfl⟩ := List.mem_map.1 hx
    rw [List.mem_range] at hk
    exact samplePlan_bounds fc tc htc hle k hk

/-- C5 witness: `frame_count = 10`, `target_columns = 5`. -/
theorem claim_C5_witness :
    samplePlan 10 5 = (List.range 5).map (fun k => k * (10 / 5)) ∧
    (samplePlan 10 5).length = 5 ∧
    (samplePlan 10 5).Pairwise (· ≤ ·) ∧
    ∀ x ∈ samplePlan 10 5, x < 10 :=
  claim_C5_plan_shape 10 5 (by decide) (by decide)

theorem planAux_zero_si (fc : ℕ) (hfc : 0 < fc) : ∀ n, planAux fc 0 0 n = List.replicate n 0 := by
  intro n
  induction n with
  | zero => rfl
  | succ n ih =>
    rw [planAux, if_pos hfc]
    have e : (0 : ℕ) + 0 = 0 := rfl
    rw [e, ih, List.replicate_succ]

/-- C4 counterexample: for `frame_count = 3` and `target_columns = 10` the
plan is ten zeros — `sample_interval` is 0, `current_frame` never advances,
and the loop only stops when `column_id` reaches `target_columns` — so the
plan is strictly longer than `[0,0,0]`. -/
theorem claim_C4_counterexample :
    samplePlan 3 10 = List.replicate 10 0 ∧ ¬ (samplePlan 3 10).length ≤ 3 := by
  constructor
  · decide
  · decide

/-- C4 amended: for every `0 < frame_count < target_columns` the plan consists
of exactly `target_columns` zeros (in particular its length is at most
`target_columns` and every generated index equals 0); for
`frame_count = 3, target_columns = 10` it is `[0,0,0,0,0,0,0,0,0,0]`, not
`[0,0,0]` or shorter. -/
theorem claim_C4_amended (fc tc : ℕ) (hfc : 0 < fc) (hlt : fc < tc) :
    samplePlan fc tc = List.replicate tc 0 := by
  rw [samplePlan, Nat.div_eq_of_lt hlt, planAux_zero_si fc hfc]

/-- C4 witness: the amended theorem at `frame_count = 3`, `target_columns = 10`. -/
theorem claim_C4_witness : samplePlan 3 10 = List.replicate 10 0 :=
  claim_C4_amended 3 10 (by decide) (by decide)

/-! ## Lemmas about the art image and the builder -/

theorem paintColumn_aux (col : ℕ) (v : ℕ → Color) : ∀ (n : ℕ) (art : Image) (y x : ℕ),
    ((List.range n).foldl (fun im i => setPixel im i col (v i)) art) y x
      = if x = col ∧ y < n then v y else art y x := by
  intro n
  induction n with
  | zero => intro art y x; simp
  | succ n ih =>
    intro art y x
    rw [List.range_succ, List.foldl_append, List.foldl_cons, List.foldl_nil, setPixel]
    by_cases hyx : y = n ∧ x = col
    · rw [if_pos hyx]
      rcases hyx with ⟨hy, hx⟩
      subst hy
      rw [if_pos ⟨hx, by omega⟩]
    · rw [if_neg hyx, ih]
      by_cases hcond : x = col ∧ y < n
      · rw [if_pos hcond, if_pos ⟨hcond.1, by omega⟩]
      · rw [if_neg hcond, if_neg ?_]
        intro hc
        rcases hc with ⟨hx, hy⟩
        have hyn : y ≠ n := fun he => hyx ⟨he, hx⟩
        exact hcond ⟨hx, by omega⟩

theorem paintColumn_spec (art : Image) (col : ℕ) (v : ℕ → Color) (y x : ℕ) :
    paintColumn art col v y x = if x = col ∧ y < ART_H then v y else art y x :=
  paintColumn_aux col v ART_H art y x

theorem CreateArtColumn_invalid (f : Frame) (art : Image) (col style : ℕ)
    (h1 : style ≠ 1) (h2 : style ≠ 2) (h3 : style ≠ 3) :
    CreateArtColumn f art col style = .error "Style not found." := by
  rw [CreateArtColumn, if_neg h1, if_neg h2, if_neg h3]

/-- C8: rendering a single color into column `c` (CenterPixel style 1 or
AverageColor style 2) sets all `ART_HEIGHT` rows of column `c` to that color
and leaves every pixel of every other column unchanged, for `c < ART_WIDTH`.
The column bound and nonempty-frame bounds are the C++ in-range conditions. -/
theorem claim_C8_solid_column (f : Frame) (art : Image) (col : ℕ)
    (hcol : col < ART_W) (hh : 0 < f.h) (hw : 0 < f.w) :
    (∃ img, CreateArtColumn f art col 1 = .ok img ∧
      (∀ y, y < ART_H → img y col = f.pix (f.h / 2) (f.w / 2)) ∧
      (∀ y x, x ≠ col → img y x = art y x)) ∧
    (∃ img, CreateArtColumn f art col 2 = .ok img ∧
      (∀ y, y < ART_H → img y col = GetFrameAverageColor f) ∧
      (∀ y x, x ≠ col → img y x = art y x)) := by
  constructor
  · refine ⟨paintColumn art col (fun _ => f.pix (f.h / 2) (f.w / 2)), rfl, ?_, ?_⟩
    · intro y hy
      rw [paintColumn_spec, if_pos ⟨rfl, hy⟩]
    · intro y x hx
      rw [paintColumn_spec, if_neg (fun hc => hx hc.1)]
  · refine ⟨paintColumn art col (fun _ => GetFrameAverageColor f), rfl, ?_, ?_⟩
    · intro y hy
      rw [paintColumn_spec, if_pos ⟨rfl, hy⟩]
    · intro y x hx
      rw [paintColumn_spec, if_neg (fun hc => hx hc.1)]

/-- C8 witness: the theorem at the 1 × 1 black frame, the all-black art image
and column 0. -/
theorem claim_C8_witness :
    (∃ img, CreateArtColumn oneFrame zeroImage 0 1 = .ok img ∧
      (∀ y, y < ART_H → img y 0 = oneFrame.pix (oneFrame.h / 2) (oneFrame.w / 2)) ∧
      (∀ y x, x ≠ 0 → img y x = zeroImage y x)) ∧
    (∃ img, CreateArtColumn oneFrame zeroImage 0 2 = .ok img ∧
      (∀ y, y < ART_H → img y 0 = GetFrameAverageColor oneFrame) ∧
      (∀ y x, x ≠ 0 → img y x = zeroImage y x)) :=
  claim_C8_solid_column oneFrame zeroImage 0 (by decide) (by decide) (by decide)

/-- C6: requesting an unknown rendering style makes `CreateArtColumn` throw
`invalid_argument("Style not found.")` — which the local `catch (cv::Exception)`
does not catch — so no column is written (no image is produced by the call)
and the exception propagates out of the sampling loop, aborting the build. -/
theorem claim_C6_invalid_style_aborts (f : Frame) (src : Source) (art : Image) (style : ℕ)
    (h1 : style ≠ 1) (h2 : style ≠ 2) (h3 : style ≠ 3)
    (ho : src.opened = true) (hfc : 0 < src.frameCount) (hf0 : src.frames 0 = some f) :
    CreateArtColumn f art 0 style = .error "Style not found." ∧
    buildWithStyle src art style = .error "Style not found." := by
  refine ⟨CreateArtColumn_invalid f art 0 style h1 h2 h3, ?_⟩
  rw [buildWithStyle, if_pos ho, show ART_W = 1919 + 1 from rfl, buildLoop, if_pos hfc, hf0]
  show (match CreateArtColumn f art 0 style with
      | Except.error e => Except.error e
      | Except.ok art2 => buildLoop src src.frameCount (src.frameCount / (1919 + 1)) style
          (0 + src.frameCount / (1919 + 1)) (0 + 1) 1919 art2)
      = Except.error "Style not found."
  rw [CreateArtColumn_invalid f art 0 style h1 h2 h3]

/-- C6 witness: style 0 on a healthy 10-frame source. -/
theorem claim_C6_witness :
    CreateArtColumn oneFrame zeroImage 0 0 = .error "Style not found." ∧
    buildWithStyle okSource zeroImage 0 = .error "Style not found." :=
  claim_C6_invalid_style_aborts oneFrame okSource zeroImage 0 (by decide) (by decide)
    (by decide) rfl (by decide) rfl

/-- C1: the claim is right and the code is wrong. When the source cannot be
opened, `CreateMovieWallArt` prints an error and returns, but `main`
unconditionally calls `imwrite(ART_PATH, art_image)`: an output image (the
untouched buffer) is written to the art path despite the failure. -/
theorem claim_C1_writes_despite_failure :
    badSource.opened = false ∧ mainRun badSource zeroImage = some zeroImage := by
  exact ⟨rfl, rfl⟩

theorem CreateArtColumn_style3_ok (f : Frame) (art : Image) (col : ℕ) :
    CreateArtColumn f art col 3
      = .ok (paintColumn art col (fun i => (GetFramePixelStrip f ART_H).getD i ⟨0, 0, 0⟩)) :=
  rfl

theorem renderColumns3_cons (f : Frame) (fs : List Frame) (col : ℕ) (art : Image) :
    renderColumns 3 (f :: fs) col art
      = renderColumns 3 fs (col + 1)
          (paintColumn art col (fun i => (GetFramePixelStrip f ART_H).getD i ⟨0, 0, 0⟩)) :=
  rfl

theorem buildLoop_step_none (src : Source) (fc si style cur col m : ℕ) (art : Image)
    (hcur : cur < fc) (hf : src.frames cur = none) :
    buildLoop src fc si style cur col (m + 1) art = .ok art := by
  rw [buildLoop, if_pos hcur, hf]

theorem buildLoop_step3 (src : Source) (fc si cur col m : ℕ) (art : Image) (f : Frame)
    (hcur : cur < fc) (hf : src.frames cur = some f) :
    buildLoop src fc si 3 cur col (m + 1) art
      = buildLoop src fc si 3 (cur + si) (col + 1) m
          (paintColumn art col (fun i => (GetFramePixelStrip f ART_H).getD i ⟨0, 0, 0⟩)) := by
  rw [buildLoop, if_pos hcur, hf]
  exact rfl

theorem readFrames_cons (src : Source) (si cur k : ℕ) (f : Frame)
    (hf : src.frames cur = some f) :
    readFrames src si cur (k + 1) = f :: readFrames src si (cur + si) k := by
  rw [readFrames, hf]

theorem readFrames_length_le (src : Source) (si : ℕ) : ∀ (k cur : ℕ),
    (readFrames src si cur k).length ≤ k := by
  intro k
  induction k with
  | zero => intro cur; simp [readFrames]
  | succ k ih =>
    intro cur
    rw [readFrames]
    cases h : src.frames cur with
    | none => simp
    | some f =>
      simp only [List.length_cons]
      have := ih (cur + si)
      omega

theorem renderColumns3_ok : ∀ (fs : List Frame) (col : ℕ) (art : Image),
    ∃ img, renderColumns 3 fs col art = .ok img ∧
      ∀ y x, x < col ∨ col + fs.length ≤ x → img y x = art y x := by
  intro fs
  induction fs with
  | nil => intro col art; exact ⟨art, rfl, fun y x _ => rfl⟩
  | cons f fs ih =>
    intro col art
    obtain ⟨img, himg, hfr⟩ := ih (col + 1)
      (paintColumn art col (fun i => (GetFramePixelStrip f ART_H).getD i ⟨0, 0, 0⟩))
    refine ⟨img, ?_, ?_⟩
    · rw [renderColumns3_cons]
      exact himg
    · intro y x hx
      have hx2 : x < col + 1 ∨ (col + 1) + fs.length ≤ x := by
        rcases hx with hl | hr
        · left; omega
        · right
          rw [List.length_cons] at hr
          omega
      rw [hfr y x hx2, paintColumn_spec, if_neg ?_]
      intro hc
      rcases hc with ⟨hxe, _⟩
      rcases hx with hl | hr
      · omega
      · rw [List.length_cons] at hr
        omega

theorem buildLoop_eos (src : Source) (fc si : ℕ) : ∀ (k cur col fuel : ℕ) (art : Image),
    k < fuel →
    (∀ j, j < k → (src.frames (cur + j * si)).isSome = true) →
    src.frames (cur + k * si) = none →
    cur + k * si < fc →
    buildLoop src fc si 3 cur col fuel art
      = renderColumns 3 (readFrames src si cur k) col art := by
  intro k
  induction k with
  | zero =>
    intro cur col fuel art hf _hread hend hcur
    obtain ⟨m, rfl⟩ : ∃ m, fuel = m + 1 := ⟨fuel - 1, by omega⟩
    rw [buildLoop_step_none src fc si 3 cur col m art (by simpa using hcur)
      (by simpa using hend)]
    rfl
  | succ k ih =>
    intro cur col fuel art hf hread hend hcur
    obtain ⟨m, rfl⟩ : ∃ m, fuel = m + 1 := ⟨fuel - 1, by omega⟩
    have hcurlt : cur < fc := by
      have := Nat.le_add_right cur ((k + 1) * si)
      omega
    have h0 : (src.frames cur).isSome = true := by
      have := hread 0 (by omega)
      simpa using this
    obtain ⟨f, hf0⟩ := Option.isSome_iff_exists.1 h0
    rw [buildLoop_step3 src fc si cur col m art f hcurlt hf0,
        readFrames_cons src si cur k f hf0, renderColumns3_cons]
    apply ih (cur + si) (col + 1) m _ (by omega)
    · intro j hj
      rw [show cur + si + j * si = cur + (j + 1) * si by ring]
      exact hread (j + 1) (by omega)
    · rw [show cur + si + k * si = cur + (k + 1) * si by ring]
      exact hend
    · rw [show cur + si + k * si = cur + (k + 1) * si by ring]
      exact hcur

/-- C7: if the source (opened, with `k * sample_interval` still a valid frame
position and within the first `ART_WIDTH` columns) delivers `k` frames and then
signals end of stream, the build stops sampling early and completes normally
with `Except.ok`: the result is exactly the `k` rendered columns
(`renderColumns` over the frames actually read), and every column from `k`
onward keeps the initial image's color. -/
theorem claim_C7_eos_stops_early (src : Source) (art : Image) (k : ℕ)
    (ho : src.opened = true) (hk : k < ART_W)
    (hread : ∀ j, j < k → (src.frames (j * (src.frameCount / ART_W))).isSome = true)
    (hend : src.frames (k * (src.frameCount / ART_W)) = none)
    (hcur : k * (src.frameCount / ART_W) < src.frameCount) :
    ∃ img, CreateMovieWallArt src art = .ok img ∧
      renderColumns 3 (readFrames src (src.frameCount / ART_W) 0 k) 0 art = .ok img ∧
      ∀ y x, k ≤ x → img y x = art y x := by
  have hloop : buildLoop src src.frameCount (src.frameCount / ART_W) 3 0 0 ART_W art
      = renderColumns 3 (readFrames src (src.frameCount / ART_W) 0 k) 0 art := by
    apply buildLoop_eos src src.frameCount (src.frameCount / ART_W) k 0 0 ART_W art hk
    · intro j hj
      simpa using hread j hj
    · simpa using hend
    · simpa using hcur
  obtain ⟨img, hok, hfr⟩ := renderColumns3_ok (readFrames src (src.frameCount / ART_W) 0 k) 0 art
  refine ⟨img, ?_, hok, ?_⟩
  · rw [CreateMovieWallArt, buildWithStyle, if_pos ho, hloop, hok]
  · intro y x hx
    apply hfr
    right
    have hlen := readFrames_length_le src (src.frameCount / ART_W) k 0
    omega

/-- C7 witness: a source with 1920 reported frames that delivers frames 0–2
and then reports end of stream (`k = 3` of 1920 planned samples). -/
theorem claim_C7_witness :
    ∃ img, CreateMovieWallArt eosSource zeroImage = .ok img ∧
      renderColumns 3 (readFrames eosSource (eosSource.frameCount / ART_W) 0 3) 0 zeroImage
        = .ok img ∧
      ∀ y x, 3 ≤ x → img y x = zeroImage y x :=
  claim_C7_eos_stops_early eosSource zeroImage 3 rfl (by decide) (by decide) rfl (by decide)
